import Mathlib

/-!
# Verification of the quill groups module

A shallow embedding of the group/grouper data model of the quill-test
repository (files `groups-module.js`, `grouper-blots.js` / `groupers.js`,
`group.js`, `region.js`, `screen-point.js`) together with proofs about it.

The document is modelled as a linear sequence of atoms: ordinary characters
and grouper embeds.  Every atom has length 1 (Quill embeds report length 1,
see `Grouper.length()`), so the document index of an atom is its position in
the sequence.  A grouper carries a nonzero integer id; negative means
open/left marker, positive means close/right marker, and the two markers
with ids `-n` / `+n` form the pair of the group with id `n`.
-/

namespace QuillGroups

/-- One atom of the linear Quill document: a plain character, or a grouper
embed carrying its signed id (negative = open marker, positive = close
marker), exactly the `{ id : integer }` payload of `grouper-blots.js`. -/
inductive Item where
  | ch : Item
  | grouper : Int → Item
deriving DecidableEq, Repr

/-- The editor state that the groups module can observe and mutate: the
document contents plus the current selection (`quill.getSelection()` returns
`null` or a `{index, length}` range, modelled as an `Option`). -/
structure EditorState where
  doc : List Item
  selection : Option (Nat × Nat)
deriving DecidableEq, Repr

/-- `allGroupers()`: all groupers in the document, in document order.  In
the model a grouper is represented by its signed id (which determines it in
a well-formed document). -/
def allGroupers (doc : List Item) : List Item :=
  doc.filter fun it =>
    match it with
    | .grouper _ => true
    | .ch => false

/-- The id of a grouper item (`this.id` in `grouper-blots.js`); `0` is
never an actual grouper id and stands in for reading the field of a
non-grouper. -/
def grouperId : Item → Int
  | .grouper g => g
  | .ch => 0

/-- `allGroupers().map(g => g.id)` as computed at the top of
`nextAvailableId()`: the signed ids of all groupers in document order. -/
def usedIds (doc : List Item) : List Int :=
  (allGroupers doc).map grouperId

/-! ## C1: `Group.relativePosition` (group.js)

`Group.indices()` returns a plain object with the four properties
`beforeOpen`, `afterOpen`, `beforeClose` and `afterClose`.
`Group.relativePosition(index)` however reads `indices[0]`, `indices[1]`,
`indices[2]`, `indices[3]` and `indices[5]` from that object.  We model a
JavaScript property read on that object faithfully: the four named keys
are present, every numeric key is absent (yields `undefined`, here `none`),
and `<`, `>`, `==` against `undefined` are all false in JavaScript. -/

/-- The object returned by `Group.indices()` in `group.js`: exactly four
named properties. -/
structure IndicesObj where
  beforeOpen : Int
  afterOpen : Int
  beforeClose : Int
  afterClose : Int
deriving DecidableEq, Repr

/-- A JavaScript property key as used inside `relativePosition`: either one
of the four names `indices()` defines, or a numeric key such as the `0` in
`indices[0]`. -/
inductive JsKey where
  | beforeOpen | afterOpen | beforeClose | afterClose
  | numeric : Nat → JsKey
deriving DecidableEq, Repr

/-- JavaScript property access `indices[key]` on the object returned by
`indices()`: the four named properties are present, any numeric key is
absent and reads as `undefined` (`none`). -/
def indicesRead (o : IndicesObj) : JsKey → Option Int
  | .beforeOpen => some o.beforeOpen
  | .afterOpen => some o.afterOpen
  | .beforeClose => some o.beforeClose
  | .afterClose => some o.afterClose
  | .numeric _ => none

/-- JavaScript `a < b` where `b` may be `undefined`: comparison with
`undefined` converts it to NaN and the result is false. -/
def jsLt (a : Int) : Option Int → Bool
  | some b => a < b
  | none => false

/-- JavaScript `a > b` where `b` may be `undefined`: false on `undefined`. -/
def jsGt (a : Int) : Option Int → Bool
  | some b => b < a
  | none => false

/-- JavaScript loose equality `a == b` between a number and a possibly
`undefined` value: a number is never `==` to `undefined`. -/
def jsEqNum (a : Int) : Option Int → Bool
  | some b => a == b
  | none => false

/-- `Group.relativePosition(index)` from `group.js`, transcribed ternary by
ternary.  The lookups use the numeric keys `0`, `1`, `2`, `3`, `5` on the
object produced by `indices()`. -/
def relativePosition (o : IndicesObj) (index : Int) : Int :=
  if jsLt index (indicesRead o (.numeric 0)) then 0
  else if jsEqNum index (indicesRead o (.numeric 0)) then 1
  else if jsEqNum index (indicesRead o (.numeric 1)) then 2
  else if jsGt index (indicesRead o (.numeric 1)) && jsLt index (indicesRead o (.numeric 2)) then 3
  else if jsEqNum index (indicesRead o (.numeric 3)) then 4
  else if jsEqNum index (indicesRead o (.numeric 5)) then 5
  else 6

/-- The classification that both the doc comment of `relativePosition` and
the spec describe, for comparison with what the code computes. -/
def relativePositionSpec (o : IndicesObj) (index : Int) : Int :=
  if index < o.beforeOpen then 0
  else if index = o.beforeOpen then 1
  else if index = o.afterOpen then 2
  else if o.afterOpen < index ∧ index < o.beforeClose then 3
  else if index = o.beforeClose then 4
  else if index = o.afterClose then 5
  else 6

/-! ## C9: Region classification (region.js / screen-point.js)

Both revisions of the Region constructor classify with
`this.isRect = rect2.top < rect1.bottom - epsilon`, `epsilon = 3`.
Coordinates are modelled as rationals (exact pixel arithmetic; only
subtraction and comparison occur here). -/

/-- A DOM bounding box as returned by `getBoundingClientRect()`, restricted
to the fields the Region classification reads. -/
structure JsRect where
  left : ℚ
  top : ℚ
  right : ℚ
  bottom : ℚ
deriving DecidableEq, Repr

/-- The `epsilon = 3` pixel tolerance constant of `region.js`. -/
def regionEpsilon : ℚ := 3

/-- `this.isRect = rect2.top < rect1.bottom - epsilon` from the Region
constructor (`region.js` line 47, `screen-point.js` line 471): true means
the region is a single rectangle, false means a wrapped region. -/
def regionIsRect (rect1 rect2 : JsRect) : Bool :=
  rect2.top < rect1.bottom - regionEpsilon

/-! ## C6: `findAll` / `find` / `findLast` (groups-module.js)

`findAll(predicate)` filters `allGroupers()` and hands the predicate the
grouper together with `this.quill.getIndex(g)`, the grouper's document
index.  `find(predicate)` and `findLast(predicate)` loop over the array
`all = allGroupers()` and hand the predicate `all[i]` together with `i`,
the position within that array. -/

/-- The `(grouper, documentIndex)` pairs that `findAll` tests: each grouper
with its document index (each atom has length 1, so the index of an atom is
its position in the document). -/
def allGroupersIndexed (doc : List Item) : List (Item × Nat) :=
  doc.enum.filterMap fun pi =>
    match pi with
    | (p, .grouper g) => some (.grouper g, p)
    | (_, .ch) => none

/-- `findAll(predicate)` from `groups-module.js`: the groupers satisfying
`predicate(g, quill.getIndex(g))`, in document order. -/
def findAll (doc : List Item) (predicate : Item → Nat → Bool) : List Item :=
  ((allGroupersIndexed doc).filter fun e => predicate e.1 e.2).map (·.1)

/-- `find(predicate)` from `groups-module.js`: iterates `i` over the
positions of the `allGroupers()` array and returns the first `all[i]` with
`predicate(all[i], i)` — note the second argument is the array position,
not the document index. -/
def find (doc : List Item) (predicate : Item → Nat → Bool) : Option Item :=
  ((allGroupers doc).enum.find? fun e => predicate e.2 e.1).map (·.2)

/-- `findLast(predicate)` from `groups-module.js`: same loop as `find` but
downward from the end of the array; again the predicate receives the array
position. -/
def findLast (doc : List Item) (predicate : Item → Nat → Bool) : Option Item :=
  ((allGroupers doc).enum.reverse.find? fun e => predicate e.2 e.1).map (·.2)

/-! ## C8: `nextAvailableId` (groups-module.js) -/

/-- The `while (usedIds.includes(possibleAnswer)) possibleAnswer++` loop of
`nextAvailableId()`, made total with explicit fuel; the loop terminates
because the candidate leaves the finite list after at most `usedIds.length`
increments, so `nextAvailableId` below runs it with fuel
`usedIds.length + 1`, which `nextAvailFrom_spec` proves sufficient. -/
def nextAvailFrom (used : List Int) : Nat → Nat → Nat
  | 0, cand => cand
  | fuel + 1, cand =>
    if used.contains (cand : Int) then nextAvailFrom used fuel (cand + 1) else cand

/-- `nextAvailableId()` from `groups-module.js`: scan the ids of all
groupers and return the smallest positive integer not among them, starting
the candidate search at 1. -/
def nextAvailableId (doc : List Item) : Nat :=
  nextAvailFrom (usedIds doc) ((usedIds doc).length + 1) 1

/-- The positive grouper ids in the document: the ids of the close markers,
i.e. the ids of the groups currently in the document (a group's shared id
is the positive one). -/
def groupIds (doc : List Item) : List Int :=
  (usedIds doc).filter fun g => decide (0 < g)

/-! ## C7: `Group.contains` and `Group.indices` (group.js) -/

/-- The four boundary indices `Group.indices()` computes from the document
indices of the open and close groupers:
`{beforeOpen: o, afterOpen: o+1, beforeClose: c, afterClose: c+1}`. -/
structure Indices where
  beforeOpen : Nat
  afterOpen : Nat
  beforeClose : Nat
  afterClose : Nat
deriving DecidableEq, Repr

/-- `Group.indices()` as a function of the two groupers' document
indices. -/
def indicesFor (openIndex closeIndex : Nat) : Indices :=
  ⟨openIndex, openIndex + 1, closeIndex, closeIndex + 1⟩

/-- `Group.contains(other)` from `group.js`:
`mine.beforeOpen < theirs.beforeOpen && mine.afterClose > theirs.beforeClose`. -/
def groupContains (mine theirs : Indices) : Bool :=
  decide (mine.beforeOpen < theirs.beforeOpen) && decide (theirs.beforeClose < mine.afterClose)

/-! ## C2: `Grouper.deleteAt` and `Grouper.partner` (grouper-blots.js)

The deletion protocol works on the grouper objects themselves; the parts of
the state it can observe are: which groupers are still in the document (in
order), each grouper's `beingDeleted` flag, and each grouper's cached
`_partner` reference.  Groupers are identified by their signed id (unique
in a well-formed document).  We additionally log each run of
`super.deleteAt` (the actual removal) to express "each marker is deleted
exactly once". -/

/-- The state visible to `Grouper.deleteAt`: the ids of the groupers still
in the document in document order, the set of ids whose `beingDeleted` flag
is set, the `_partner` cache links, and a log of the ids on which
`super.deleteAt` has run (most recent first). -/
structure DelState where
  doc : List Int
  flags : List Int
  cache : List (Int × Int)
  delLog : List Int
deriving DecidableEq, Repr

/-- Reading the `_partner` field of grouper `g`: the most recently written
cache entry for `g`, if any (`undefined` reads as `none`). -/
def cacheGet (c : List (Int × Int)) (g : Int) : Option Int :=
  (c.find? fun e => e.1 == g).map (·.2)

/-- `Grouper.partner()` from `grouper-blots.js`: if `_partner` is unset,
scan the current document for the grouper whose id is the negation of this
one's, and on success store the link mutually on both groupers. -/
def partnerOf (st : DelState) (g : Int) : Option Int × DelState :=
  match cacheGet st.cache g with
  | some p => (some p, st)
  | none =>
    match st.doc.find? fun h => h == -g with
    | some p => (some p, { st with cache := (g, p) :: (p, g) :: st.cache })
    | none => (none, st)

/-- `Grouper.deleteAt(index, length)` from `grouper-blots.js`: return if
`beingDeleted` is already set; otherwise set it, look up the partner
(before the local removal, which would make the document scan miss), run
`super.deleteAt` (remove this grouper from the document, logged), and then
ask the partner to delete itself.  The mutual recursion is made total with
explicit fuel; `deleteAt_removes_pair` proves that fuel 3 already computes
the fixed point, i.e. the recursion terminates. -/
def deleteAt : Nat → DelState → Int → DelState
  | 0, st, _ => st
  | fuel + 1, st, g =>
    if st.flags.contains g then st
    else
      match partnerOf { st with flags := g :: st.flags } g with
      | (some pid, st2) =>
          deleteAt fuel { st2 with doc := st2.doc.erase g, delLog := g :: st2.delLog } pid
      | (none, st2) => { st2 with doc := st2.doc.erase g, delLog := g :: st2.delLog }

/-! ## JavaScript stringification of id arrays

The guard of `wrapSelection` compares the two open-id stacks with
``  `${this.idsContaining(start)}` != `${this.idsContaining(start+length)}` ``,
i.e. it stringifies both integer arrays (comma-separated decimal
representations) and compares the strings.  We model the stringification at
the character-list level. -/

/-- The decimal digit character for a digit below 10. -/
def digitChar (d : Nat) : Char := Char.ofNat (48 + d)

/-- JavaScript `String(n)` for a natural number: its decimal digits, most
significant first, and `"0"` for zero. -/
def natChars (n : Nat) : List Char :=
  if n = 0 then ['0'] else (Nat.digits 10 n).reverse.map digitChar

/-- JavaScript `String(i)` for an integer: a leading minus sign for
negative values. -/
def intChars (i : Int) : List Char :=
  if i < 0 then '-' :: natChars i.natAbs else natChars i.natAbs

/-- JavaScript `Array.prototype.join(',')`: the parts separated by single
commas (template-literal stringification of an array uses exactly this). -/
def sepConcat : List (List Char) → List Char
  | [] => []
  | [x] => x
  | x :: y :: rest => x ++ ',' :: sepConcat (y :: rest)

/-- The characters of `` `${l}` `` for an integer array `l`. -/
def jsArrayString (l : List Int) : List Char :=
  sepConcat (l.map intChars)

/-! ## `idsContaining` (groups-module.js; `idsOpenAt` in the older
revisions)

The loop walks `allGroupers()` in document order, breaks at the first
grouper whose document index is at least the queried index, pushes the
grouper's (negative) id on open markers and pops on close markers
(`Array.prototype.pop` on an empty array is a silent no-op). -/

/-- The scanning loop of `idsContaining(index)`: `pos` is the document
index of the current atom (every atom has length 1), `acc` the stack built
so far.  Non-grouper atoms only advance the position; a grouper at
position `>= index` stops the scan. -/
def idsGo : List Item → Nat → Nat → List Int → List Int
  | [], _, _, acc => acc
  | .ch :: rest, pos, index, acc => idsGo rest (pos + 1) index acc
  | .grouper g :: rest, pos, index, acc =>
    if index ≤ pos then acc
    else idsGo rest (pos + 1) index (if g < 0 then acc ++ [g] else acc.dropLast)

/-- `idsContaining(index)` from `groups-module.js`: the stack of open
marker ids for the groups still open just before `index`. -/
def idsContaining (doc : List Item) (index : Nat) : List Int :=
  idsGo doc 0 index []

/-- One step of the same stack simulation, for reasoning: push the
(negative) id of an open marker, pop on a close marker, ignore characters. -/
def stackStep (acc : List Int) : Item → List Int
  | .grouper g => if g < 0 then acc ++ [g] else acc.dropLast
  | .ch => acc

/-- The stack left after scanning a whole prefix of the document. -/
def stackRun (l : List Item) : List Int :=
  l.foldl stackStep []

/-! ## `wrapSelection` (groups-module.js) -/

/-- `quill.insertEmbed(index, ...)`: insert an atom at the given document
index (clamped to the end of the document, as Quill does). -/
def insertAt (l : List Item) (n : Nat) (it : Item) : List Item :=
  l.take n ++ it :: l.drop n

/-- `wrapSelection()` from `groups-module.js`: do nothing without a
selection; silently reject when the stringified open-id stacks at the two
ends of the selection differ; otherwise allocate a fresh id, insert the
open marker at `start`, the close marker at `start + 1 + length` (the `+1`
accounts for the open marker just inserted), and select the interior
`(start + 1, length)`. -/
def wrapSelection (st : EditorState) : EditorState :=
  match st.selection with
  | none => st
  | some (start, len) =>
    if jsArrayString (idsContaining st.doc start) ≠
        jsArrayString (idsContaining st.doc (start + len)) then st
    else
      { doc := (insertAt
          (insertAt st.doc start (.grouper (-(nextAvailableId st.doc : Int))))
          (start + 1 + len) (.grouper (nextAvailableId st.doc : Int))),
        selection := some (start + 1, len) }

/-! ## Group boundaries from the document -/

/-- The position of the first occurrence of an atom in the document (this
is `quill.getIndex` of a grouper when the grouper occurs exactly once). -/
def findPos : List Item → Item → Option Nat
  | [], _ => none
  | x :: rest, it => if x = it then some 0 else (findPos rest it).map (· + 1)

/-- `Group.indices()` for the group with positive id `n`, computed from the
document: the open marker is the grouper with id `-n`, the close marker the
grouper with id `n`; `none` when either marker is absent. -/
def groupIndices (doc : List Item) (n : Nat) : Option Indices :=
  match findPos doc (.grouper (-(n : Int))), findPos doc (.grouper (n : Int)) with
  | some o, some c => some (indicesFor o c)
  | _, _ => none

/-! ## Well-nestedness (spec §3) and the enclosing groups of an index -/

/-- Decidable well-formedness of the marker sequence, as the spec's §3
invariant states it: every grouper has a nonzero id and occurs exactly once
together with its partner; every pair's open marker precedes its close
marker; and no two distinct pairs interleave
(`open m < open n < close m < close n` never happens). -/
def wellNestedB (doc : List Item) : Bool :=
  ((usedIds doc).all fun g =>
    decide (g ≠ 0) && (doc.count (.grouper g) == 1) && (doc.count (.grouper (-g)) == 1)) &&
  ((groupIds doc).all fun n =>
    match findPos doc (.grouper (-n)), findPos doc (.grouper n) with
    | some p, some q => decide (p < q)
    | _, _ => false) &&
  ((groupIds doc).all fun m => (groupIds doc).all fun n =>
    (m == n) ||
    match findPos doc (.grouper (-m)), findPos doc (.grouper m),
        findPos doc (.grouper (-n)), findPos doc (.grouper n) with
    | some pm, some qm, some pn, some qn =>
        !(decide (pm < pn) && decide (pn < qm) && decide (qm < qn))
    | _, _, _, _ => false)

/-- Whether the group with positive id `n` properly encloses position `p`
of the document: scanning for the open marker `-g` at position `p` below
`index` whose close marker sits at or beyond `index`.  Used pointwise by
`enclosingIds`. -/
def encAt (doc : List Item) (index p : Nat) : Option Int :=
  match doc[p]? with
  | some (.grouper g) =>
    if g < 0 then
      match findPos doc (.grouper (-g)) with
      | some q => if index ≤ q then some (-g) else none
      | none => none
    else none
  | _ => none

/-- The positive ids of the groups properly enclosing `index` (open marker
strictly before `index`, close marker at or after it), ordered by open
marker position, i.e. outermost first. -/
def enclosingIds (doc : List Item) (index : Nat) : List Int :=
  (List.range index).filterMap (encAt doc index)

/-- Group `m` strictly encloses group `n` in the document: both pairs are
present and `n`'s marker interval is strictly inside `m`'s. -/
def strictlyEncloses (doc : List Item) (m n : Int) : Prop :=
  ∃ pm qm pn qn : Nat,
    findPos doc (.grouper (-m)) = some pm ∧ findPos doc (.grouper m) = some qm ∧
    findPos doc (.grouper (-n)) = some pn ∧ findPos doc (.grouper n) = some qn ∧
    pm < pn ∧ qn < qm

/-! ## Theorems -/

/-! ### Injectivity of the JavaScript stringification of id arrays -/

/-- No two decimal digits share a character. -/
theorem digitChar_lt_inj {d e : Nat} (hd : d < 10) (he : e < 10)
    (h : digitChar d = digitChar e) : d = e := by
  interval_cases d <;> interval_cases e <;> revert h <;> decide

/-- A comma is not a digit character. -/
theorem comma_ne_digitChar {d : Nat} (hd : d < 10) : ',' ≠ digitChar d := by
  interval_cases d <;> decide

/-- A minus sign is not a digit character. -/
theorem minus_ne_digitChar {d : Nat} (hd : d < 10) : '-' ≠ digitChar d := by
  interval_cases d <;> decide

/-- Every character of `natChars n` is a digit character. -/
theorem mem_natChars_digit {n : Nat} {c : Char} (h : c ∈ natChars n) :
    ∃ d : Nat, d < 10 ∧ c = digitChar d := by
  by_cases hn : n = 0
  · subst hn
    simp only [natChars, if_pos] at h
    rw [List.mem_singleton] at h
    exact ⟨0, by omega, by rw [h]; decide⟩
  · simp only [natChars, if_neg hn, List.mem_map, List.mem_reverse] at h
    obtain ⟨d, hd, rfl⟩ := h
    exact ⟨d, Nat.digits_lt_base (by omega) hd, rfl⟩

/-- Commas never occur in the decimal representation of a natural
number. -/
theorem comma_not_mem_natChars (n : Nat) : ',' ∉ natChars n := by
  intro h
  obtain ⟨d, hd, hc⟩ := mem_natChars_digit h
  exact comma_ne_digitChar hd hc

/-- A minus sign never occurs in the decimal representation of a natural
number. -/
theorem minus_not_mem_natChars (n : Nat) : '-' ∉ natChars n := by
  intro h
  obtain ⟨d, hd, hc⟩ := mem_natChars_digit h
  exact minus_ne_digitChar hd hc

/-- The decimal representation of a natural number is never empty. -/
theorem natChars_ne_nil (n : Nat) : natChars n ≠ [] := by
  by_cases hn : n = 0
  · subst hn; simp [natChars]
  · simp only [natChars, if_neg hn, ne_eq, List.map_eq_nil_iff, List.reverse_eq_nil_iff]
    exact Nat.digits_ne_nil_iff_ne_zero.mpr hn

/-- Mapping `digitChar` over digit lists is injective. -/
theorem map_digitChar_inj : ∀ {l1 l2 : List Nat}, (∀ d ∈ l1, d < 10) → (∀ d ∈ l2, d < 10) →
    l1.map digitChar = l2.map digitChar → l1 = l2
  | [], [], _, _, _ => rfl
  | [], _ :: _, _, _, h => by simp at h
  | _ :: _, [], _, _, h => by simp at h
  | d1 :: l1, d2 :: l2, h1, h2, h => by
    simp only [List.map_cons, List.cons.injEq] at h
    have hd := digitChar_lt_inj (h1 d1 (by simp)) (h2 d2 (by simp)) h.1
    have hl := map_digitChar_inj (fun d hd => h1 d (by simp [hd]))
      (fun d hd => h2 d (by simp [hd])) h.2
    rw [hd, hl]

/-- The decimal representation of natural numbers is injective. -/
theorem natChars_inj {m n : Nat} (h : natChars m = natChars n) : m = n := by
  have key : ∀ k : Nat, k ≠ 0 → natChars k = ['0'] → False := by
    intro k hk hchars
    simp only [natChars, if_neg hk] at hchars
    have hlen : (Nat.digits 10 k).reverse.length = 1 := by
      rw [← List.length_map _ digitChar, hchars]
      rfl
    obtain ⟨d, hd⟩ := List.length_eq_one.mp hlen
    rw [hd] at hchars
    simp only [List.map_cons, List.map_nil, List.cons.injEq] at hchars
    have hdigs : Nat.digits 10 k = [d] := by
      have := congrArg List.reverse hd
      simpa using this
    have hdlt : d < 10 := Nat.digits_lt_base (by omega) (by rw [hdigs]; simp)
    have hd0 : d = 0 := digitChar_lt_inj hdlt (by omega) (by rw [hchars.1]; decide)
    have := Nat.ofDigits_digits 10 k
    rw [hdigs, hd0] at this
    simp [Nat.ofDigits] at this
    exact hk this.symm
  by_cases hm : m = 0 <;> by_cases hn : n = 0
  · rw [hm, hn]
  · subst hm
    exact absurd ((by simpa [natChars] using h.symm : natChars n = ['0'])) (fun hc => key n hn hc)
  · subst hn
    exact absurd ((by simpa [natChars] using h : natChars m = ['0'])) (fun hc => key m hm hc)
  · simp only [natChars, if_neg hm, if_neg hn] at h
    have hdm : ∀ d ∈ (Nat.digits 10 m).reverse, d < 10 := fun d hd =>
      Nat.digits_lt_base (by omega) (List.mem_reverse.mp hd)
    have hdn : ∀ d ∈ (Nat.digits 10 n).reverse, d < 10 := fun d hd =>
      Nat.digits_lt_base (by omega) (List.mem_reverse.mp hd)
    have hrev := map_digitChar_inj hdm hdn h
    have hdigs : Nat.digits 10 m = Nat.digits 10 n := by
      have := congrArg List.reverse hrev
      simpa using this
    have h1 := Nat.ofDigits_digits 10 m
    have h2 := Nat.ofDigits_digits 10 n
    rw [← h1, ← h2, hdigs]

/-- The JavaScript string of an integer is never empty. -/
theorem intChars_ne_nil (i : Int) : intChars i ≠ [] := by
  by_cases hi : i < 0 <;> simp [intChars, hi, natChars_ne_nil]

/-- Commas never occur in the JavaScript string of an integer. -/
theorem comma_not_mem_intChars (i : Int) : ',' ∉ intChars i := by
  by_cases hi : i < 0
  · simp only [intChars, if_pos hi, List.mem_cons]
    rintro (h | h)
    · exact absurd h (by decide)
    · exact comma_not_mem_natChars _ h
  · simp only [intChars, if_neg hi]
    exact comma_not_mem_natChars _

/-- The JavaScript stringification of integers is injective. -/
theorem intChars_inj {i j : Int} (h : intChars i = intChars j) : i = j := by
  by_cases hi : i < 0 <;> by_cases hj : j < 0
  · simp only [intChars, if_pos hi, if_pos hj, List.cons.injEq, true_and] at h
    have := natChars_inj h
    omega
  · simp only [intChars, if_pos hi, if_neg hj] at h
    exact absurd (h ▸ List.mem_cons_self '-' _) (minus_not_mem_natChars _)
  · simp only [intChars, if_neg hi, if_pos hj] at h
    exact absurd (h ▸ List.mem_cons_self '-' _) (minus_not_mem_natChars _)
  · simp only [intChars, if_neg hi, if_neg hj] at h
    have := natChars_inj h
    omega

/-- Cancellation for comma-separated concatenation: two comma-free parts
followed by comma-led tails agree only componentwise. -/
theorem append_comma_inj : ∀ {a b r s : List Char}, ',' ∉ a → ',' ∉ b →
    a ++ ',' :: r = b ++ ',' :: s → a = b ∧ r = s
  | [], [], r, s, _, _, h => by simpa using h
  | [], c :: b', r, s, _, hb, h => by
    simp only [List.nil_append, List.cons_append, List.cons.injEq] at h
    exact absurd (h.1 ▸ List.mem_cons_self c b') hb
  | c :: a', [], r, s, ha, _, h => by
    simp only [List.cons_append, List.nil_append, List.cons.injEq] at h
    exact absurd (h.1 ▸ List.mem_cons_self c a') ha
  | c :: a', d :: b', r, s, ha, hb, h => by
    simp only [List.cons_append, List.cons.injEq] at h
    have ih := append_comma_inj (fun hc => ha (List.mem_cons_of_mem c hc))
      (fun hc => hb (List.mem_cons_of_mem d hc)) h.2
    exact ⟨by rw [h.1, ih.1], ih.2⟩

/-- The JavaScript stringification of integer arrays is injective: the
string comparison in the guard of `wrapSelection` is exactly element-wise
equality of the two id lists. -/
theorem jsArrayString_inj : ∀ {l1 l2 : List Int},
    jsArrayString l1 = jsArrayString l2 → l1 = l2
  | [], [], _ => rfl
  | [], y :: ys, h => by
    cases ys with
    | nil => exact absurd h.symm (by simpa [jsArrayString, sepConcat] using intChars_ne_nil y)
    | cons z zs =>
      have := congrArg List.length h
      simp [jsArrayString, sepConcat] at this
      have := intChars_ne_nil y
      simp [List.eq_nil_of_length_eq_zero, List.length_eq_zero] at *
      omega
  | x :: xs, [], h => by
    cases xs with
    | nil => exact absurd h (by simpa [jsArrayString, sepConcat] using intChars_ne_nil x)
    | cons z zs =>
      have := congrArg List.length h
      simp [jsArrayString, sepConcat] at this
  | x :: xs, y :: ys, h => by
    cases xs with
    | nil =>
      cases ys with
      | nil =>
        simp only [jsArrayString, List.map_cons, List.map_nil, sepConcat] at h
        rw [intChars_inj h]
      | cons w ws =>
        simp only [jsArrayString, List.map_cons, sepConcat] at h
        have hc : ',' ∈ intChars x := by
          rw [h]
          exact List.mem_append.mpr (Or.inr (List.mem_cons_self ',' _))
        exact absurd hc (comma_not_mem_intChars x)
    | cons z zs =>
      cases ys with
      | nil =>
        simp only [jsArrayString, List.map_cons, sepConcat] at h
        have hc : ',' ∈ intChars y := by
          rw [← h]
          exact List.mem_append.mpr (Or.inr (List.mem_cons_self ',' _))
        exact absurd hc (comma_not_mem_intChars y)
      | cons w ws =>
        simp only [jsArrayString, List.map_cons, sepConcat] at h
        have hsplit := append_comma_inj (comma_not_mem_intChars x)
          (comma_not_mem_intChars y) h
        have hx := intChars_inj hsplit.1
        have htail : jsArrayString (z :: zs) = jsArrayString (w :: ws) := by
          simpa [jsArrayString, List.map_cons, sepConcat] using hsplit.2
        have := jsArrayString_inj htail
        rw [hx, this]

/-- Characterization of the candidate loop of `nextAvailableId()`: provided
some free candidate lies within the fuel, the loop stops at the first
candidate not contained in `used`, and every candidate below it is
contained in `used`. -/
theorem nextAvailFrom_spec (used : List Int) :
    ∀ (fuel cand : Nat), (∃ r : Nat, cand ≤ r ∧ r < cand + fuel ∧ (r : Int) ∉ used) →
      ((nextAvailFrom used fuel cand : Int) ∉ used ∧
        cand ≤ nextAvailFrom used fuel cand ∧
        ∀ k : Nat, cand ≤ k → k < nextAvailFrom used fuel cand → (k : Int) ∈ used) := by
  intro fuel
  induction fuel with
  | zero =>
    intro cand ⟨r, h1, h2, _⟩
    omega
  | succ fuel ih =>
    intro cand ⟨r, h1, h2, h3⟩
    by_cases hmem : (cand : Int) ∈ used
    · have hcont : used.contains (cand : Int) = true := by
        simpa [List.contains] using hmem
      have hr' : cand + 1 ≤ r := by
        rcases Nat.eq_or_lt_of_le h1 with heq | hlt
        · exact absurd hmem (heq ▸ h3)
        · omega
      have hrec := ih (cand + 1) ⟨r, hr', by omega, h3⟩
      have hstep : nextAvailFrom used (fuel + 1) cand = nextAvailFrom used fuel (cand + 1) := by
        simp only [nextAvailFrom, if_pos hcont]
      rw [hstep]
      refine ⟨hrec.1, by omega, fun k hk1 hk2 => ?_⟩
      rcases Nat.eq_or_lt_of_le hk1 with heq | hlt
      · exact heq ▸ hmem
      · exact hrec.2.2 k (by omega) hk2
    · have hcont : used.contains (cand : Int) = false := by
        simpa [List.contains] using hmem
      have hstep : nextAvailFrom used (fuel + 1) cand = cand := by
        simp only [nextAvailFrom, hcont, Bool.false_eq_true, if_false]
      rw [hstep]
      exact ⟨hmem, le_refl _, fun k hk1 hk2 => absurd hk2 (by omega)⟩

/-- Pigeonhole: among the candidates `1 .. used.length + 1` at least one is
not an element of `used`, so the fuel `used.length + 1` always suffices for
the candidate loop. -/
theorem exists_unused (used : List Int) :
    ∃ r : Nat, 1 ≤ r ∧ r < 1 + (used.length + 1) ∧ (r : Int) ∉ used := by
  by_contra hcon
  push_neg at hcon
  have hinj : Function.Injective (fun k : Nat => ((k + 1 : Nat) : Int)) := by
    intro a b hab
    simp only [Nat.cast_inj] at hab
    omega
  have hsub : (Finset.range (used.length + 1)).image (fun k : Nat => ((k + 1 : Nat) : Int)) ⊆
      used.toFinset := by
    intro x hx
    simp only [Finset.mem_image, Finset.mem_range] at hx
    obtain ⟨k, hk, rfl⟩ := hx
    rw [List.mem_toFinset]
    exact hcon (k + 1) (by omega) (by omega)
  have hcard := Finset.card_le_card hsub
  rw [Finset.card_image_of_injective _ hinj, Finset.card_range] at hcard
  have := used.toFinset_card_le
  omega

/-- The two sides of the `wrapSelection` guard are equal as strings exactly
when the id lists are equal. -/
theorem jsArrayString_eq_iff {a b : List Int} :
    jsArrayString a = jsArrayString b ↔ a = b :=
  ⟨jsArrayString_inj, fun h => by rw [h]⟩

/-! ### Facts about `insertAt` and `findPos` -/

/-- Inserting an atom grows the document by exactly one. -/
theorem insertAt_length (l : List Item) (n : Nat) (it : Item) :
    (insertAt l n it).length = l.length + 1 := by
  simp only [insertAt, List.length_append, List.length_take, List.length_cons,
    List.length_drop]
  omega

/-- The inserted atom sits at the insertion index. -/
theorem insertAt_get_self (l : List Item) (n : Nat) (it : Item) (h : n ≤ l.length) :
    (insertAt l n it)[n]? = some it := by
  rw [insertAt, List.getElem?_append_right (by simp only [List.length_take]; omega)]
  simp [List.length_take, Nat.min_eq_left h]

/-- Atoms strictly before the insertion index keep their positions. -/
theorem insertAt_get_lt (l : List Item) (n : Nat) (it : Item) (q : Nat) (h : q < n)
    (hn : n ≤ l.length) :
    (insertAt l n it)[q]? = l[q]? := by
  rw [insertAt, List.getElem?_append, if_pos (by simp only [List.length_take]; omega),
    List.getElem?_take, if_pos h]

/-- Membership in the document after an insertion. -/
theorem mem_insertAt {l : List Item} {n : Nat} {it x : Item} :
    x ∈ insertAt l n it ↔ x = it ∨ x ∈ l := by
  constructor
  · intro h
    rcases List.mem_append.mp h with h | h
    · exact Or.inr ((List.take_prefix n l).subset h)
    · rcases List.mem_cons.mp h with h | h
      · exact Or.inl h
      · exact Or.inr ((List.drop_suffix n l).subset h)
  · intro h
    rcases h with rfl | h
    · exact List.mem_append.mpr (Or.inr (List.mem_cons_self _ _))
    · conv at h => rw [← List.take_append_drop n l]
      rcases List.mem_append.mp h with h | h
      · exact List.mem_append.mpr (Or.inl h)
      · exact List.mem_append.mpr (Or.inr (List.mem_cons_of_mem _ h))

/-- `findPos` finds exactly the first position carrying the atom. -/
theorem findPos_spec : ∀ {l : List Item} {it : Item} {p : Nat}, findPos l it = some p ↔
    (l[p]? = some it ∧ ∀ k : Nat, k < p → l[k]? ≠ some it) := by
  intro l
  induction l with
  | nil =>
    intro it p
    simp [findPos]
  | cons x rest ih =>
    intro it p
    by_cases hx : x = it
    · simp only [findPos, if_pos hx]
      constructor
      · intro h
        have hp : p = 0 := (Option.some_inj.mp h).symm
        subst hp
        exact ⟨by rw [List.getElem?_cons_zero, hx], fun k hk => absurd hk (by omega)⟩
      · rintro ⟨h1, h2⟩
        cases p with
        | zero => rfl
        | succ j =>
          exact absurd (by rw [List.getElem?_cons_zero, hx]) (h2 0 (by omega))
    · simp only [findPos, if_neg hx]
      cases p with
      | zero =>
        constructor
        · intro h
          rcases Option.map_eq_some'.mp h with ⟨j, _, hj⟩
          omega
        · rintro ⟨h1, _⟩
          rw [List.getElem?_cons_zero] at h1
          exact absurd (Option.some_inj.mp h1) hx
      | succ j =>
        constructor
        · intro h
          rcases Option.map_eq_some'.mp h with ⟨k, hk1, hk2⟩
          have hkj : k = j := by omega
          subst hkj
          obtain ⟨ha, hb⟩ := ih.mp hk1
          refine ⟨by rw [List.getElem?_cons_succ]; exact ha, fun m hm => ?_⟩
          cases m with
          | zero =>
            rw [List.getElem?_cons_zero]
            intro hc
            exact hx (Option.some_inj.mp hc)
          | succ m' =>
            rw [List.getElem?_cons_succ]
            exact hb m' (by omega)
        · rintro ⟨h1, h2⟩
          rw [List.getElem?_cons_succ] at h1
          refine Option.map_eq_some'.mpr ⟨j, ih.mpr ⟨h1, fun m hm => ?_⟩, rfl⟩
          have hm1 := h2 (m + 1) (by omega)
          rw [List.getElem?_cons_succ] at hm1
          exact hm1

/-- Inserting a fresh atom at index `n` makes `n` its first position. -/
theorem findPos_insertAt_self {l : List Item} {n : Nat} {it : Item} (hmem : it ∉ l)
    (hn : n ≤ l.length) :
    findPos (insertAt l n it) it = some n := by
  rw [findPos_spec]
  refine ⟨insertAt_get_self l n it hn, fun k hk hc => ?_⟩
  rw [insertAt_get_lt l n it k hk hn] at hc
  exact hmem (List.getElem?_mem hc)

/-- An atom found strictly before a later insertion point is still found at
the same position afterwards. -/
theorem findPos_insertAt_of_lt {l : List Item} {n p : Nat} {it y : Item}
    (h : findPos l y = some p) (hpn : p < n) (hn : n ≤ l.length) :
    findPos (insertAt l n it) y = some p := by
  rw [findPos_spec] at h ⊢
  refine ⟨by rw [insertAt_get_lt l n it p hpn hn]; exact h.1, fun k hk hc => ?_⟩
  rw [insertAt_get_lt l n it k (by omega) hn] at hc
  exact h.2 k hk hc

/-- Ids of groupers are exactly the ids scanned by `usedIds`. -/
theorem mem_usedIds : ∀ {doc : List Item} {g : Int},
    g ∈ usedIds doc ↔ Item.grouper g ∈ doc := by
  intro doc g
  induction doc with
  | nil => simp [usedIds, allGroupers]
  | cons x rest ih =>
    cases x with
    | ch =>
      have hstep : usedIds (Item.ch :: rest) = usedIds rest := rfl
      rw [hstep, List.mem_cons]
      simp only [ih]
      exact ⟨Or.inr, fun h => h.elim (fun hc => absurd hc (by simp)) id⟩
    | grouper h =>
      have hstep : usedIds (Item.grouper h :: rest) = h :: usedIds rest := rfl
      rw [hstep, List.mem_cons, List.mem_cons]
      simp [ih]

/-- The freshly allocated id is positive. -/
theorem nextAvailableId_pos (doc : List Item) : 1 ≤ nextAvailableId doc :=
  (nextAvailFrom_spec (usedIds doc) ((usedIds doc).length + 1) 1 (exists_unused _)).2.1

/-- No grouper in the document carries the freshly allocated id. -/
theorem nextAvailableId_not_mem (doc : List Item) :
    Item.grouper (nextAvailableId doc : Int) ∉ doc := by
  intro h
  exact (nextAvailFrom_spec (usedIds doc) ((usedIds doc).length + 1) 1
    (exists_unused _)).1 (mem_usedIds.mpr h)

/-- When the selection exists and the two id stacks agree, `wrapSelection`
inserts the fresh pair and repositions the selection (the common
computation behind the accepted cases). -/
theorem wrapSelection_accepted (st : EditorState) (I L : Nat)
    (hsel : st.selection = some (I, L))
    (hguard : idsContaining st.doc I = idsContaining st.doc (I + L)) :
    wrapSelection st =
      { doc := insertAt (insertAt st.doc I (.grouper (-(nextAvailableId st.doc : Int))))
          (I + 1 + L) (.grouper (nextAvailableId st.doc : Int)),
        selection := some (I + 1, L) } := by
  simp only [wrapSelection, hsel]
  rw [if_neg (by simp [hguard])]

/-- All facts about an accepted `wrapSelection`, for any selection length
(shared by the nonempty-selection and cursor cases). -/
theorem wrapSelection_accepted_facts (st : EditorState) (I L : Nat)
    (hsel : st.selection = some (I, L))
    (hlen : I + L ≤ st.doc.length)
    (hguard : idsContaining st.doc I = idsContaining st.doc (I + L))
    (hpair : ∀ g : Int, Item.grouper g ∈ st.doc → Item.grouper (-g) ∈ st.doc) :
    (wrapSelection st).doc.length = st.doc.length + 2 ∧
    (wrapSelection st).doc[I]? = some (.grouper (-(nextAvailableId st.doc : Int))) ∧
    (wrapSelection st).doc[I + 1 + L]? = some (.grouper (nextAvailableId st.doc : Int)) ∧
    (groupIndices (wrapSelection st).doc (nextAvailableId st.doc)).map Indices.afterOpen =
      some (I + 1) ∧
    (wrapSelection st).selection = some (I + 1, L) := by
  have hrw := wrapSelection_accepted st I L hsel hguard
  have hclne : Item.grouper (nextAvailableId st.doc : Int) ∉ st.doc :=
    nextAvailableId_not_mem st.doc
  have hopne : Item.grouper (-(nextAvailableId st.doc : Int)) ∉ st.doc := by
    intro h
    have := hpair _ h
    rw [neg_neg] at this
    exact hclne this
  have hopcl : Item.grouper (-(nextAvailableId st.doc : Int)) ≠
      Item.grouper (nextAvailableId st.doc : Int) := by
    have := nextAvailableId_pos st.doc
    simp only [ne_eq, Item.grouper.injEq]
    omega
  have hIlen : I ≤ st.doc.length := by omega
  have hDlen : (insertAt st.doc I (.grouper (-(nextAvailableId st.doc : Int)))).length =
      st.doc.length + 1 := insertAt_length _ _ _
  have hmid : I + 1 + L ≤ st.doc.length + 1 := by omega
  rw [hrw]
  refine ⟨?_, ?_, ?_, ?_, rfl⟩
  · rw [insertAt_length, insertAt_length]
  · rw [insertAt_get_lt _ _ _ I (by omega) (by omega), insertAt_get_self _ _ _ hIlen]
  · rw [insertAt_get_self _ _ _ (by omega)]
  · have hopen : findPos
        (insertAt (insertAt st.doc I (.grouper (-(nextAvailableId st.doc : Int))))
          (I + 1 + L) (.grouper (nextAvailableId st.doc : Int)))
        (.grouper (-(nextAvailableId st.doc : Int))) = some I := by
      refine findPos_insertAt_of_lt ?_ (by omega) (by omega)
      exact findPos_insertAt_self hopne hIlen
    have hclose : findPos
        (insertAt (insertAt st.doc I (.grouper (-(nextAvailableId st.doc : Int))))
          (I + 1 + L) (.grouper (nextAvailableId st.doc : Int)))
        (.grouper (nextAvailableId st.doc : Int)) = some (I + 1 + L) := by
      refine findPos_insertAt_self ?_ (by omega)
      rw [mem_insertAt]
      rintro (h | h)
      · exact hopcl h.symm
      · exact hclne h
    rw [groupIndices, hopen, hclose]
    rfl

/-! ## Theorems for C1 and C9 -/

/-- C1: the claim says `relativePosition` classifies every index into the
seven categories 0..6 by comparison with the four boundary indices, e.g.
`relativePosition(5) == 1` for a group with indices
`{beforeOpen:5, afterOpen:6, beforeClose:10, afterClose:11}`.  The code
contradicts its own doc comment: `indices()` returns an object with four
named properties but `relativePosition` reads the numeric keys `0..5`,
which are all absent, so every comparison is against `undefined` and is
false, and the function returns 6 for every group and every index.  In
particular it returns 6, not 1, at index 5 of the example group. -/
theorem relativePosition_always_six :
    (∀ (o : IndicesObj) (index : Int), relativePosition o index = 6) ∧
    relativePosition ⟨5, 6, 10, 11⟩ 5 = 6 ∧
    relativePosition ⟨5, 6, 10, 11⟩ 8 = 6 ∧
    relativePositionSpec ⟨5, 6, 10, 11⟩ 5 = 1 := by
  refine ⟨fun o index => ?_, by decide, by decide, by decide⟩
  simp [relativePosition, indicesRead, jsLt, jsGt, jsEqNum]

/-- C9: the Region is classified as a single rectangle exactly when the end
box's top edge lies above the start box's bottom edge minus the 3-pixel
epsilon (`end.top < start.bottom - 3`); the boxes `{top:0,bottom:10}` and
`{top:20,bottom:30}` give a wrapped region and the boxes `{top:0,bottom:10}`
and `{top:5,bottom:15}` give a rectangular region. -/
theorem regionIsRect_classification :
    (∀ start stop : JsRect, regionIsRect start stop = true ↔ stop.top < start.bottom - 3) ∧
    regionIsRect ⟨0, 0, 0, 10⟩ ⟨0, 20, 0, 30⟩ = false ∧
    regionIsRect ⟨0, 0, 0, 10⟩ ⟨0, 5, 0, 15⟩ = true := by
  refine ⟨fun start stop => ?_, by norm_num [regionIsRect, regionEpsilon], by norm_num [regionIsRect, regionEpsilon]⟩
  simp [regionIsRect, regionEpsilon]

/-! ## Theorems for C6, C7, C8 -/

/-- C6: the claim says `find(p)` always returns the first element of
`findAll(p)` and `findLast(p)` its last element.  The code contradicts its
own doc comments ("same as `findAll()`", "predicate — same as in
`findAll()`"): `findAll` passes the document index to the predicate while
`find`/`findLast` pass the array position.  On the document
`[text, open -1, close 1]` with the predicate "index equals 1", `findAll`
selects the open marker (document index 1) but `find` and `findLast` both
return the close marker (array position 1). -/
theorem find_disagrees_with_findAll :
    find [.ch, .grouper (-1), .grouper 1] (fun _ i => i == 1) = some (.grouper 1) ∧
    findLast [.ch, .grouper (-1), .grouper 1] (fun _ i => i == 1) = some (.grouper 1) ∧
    (findAll [.ch, .grouper (-1), .grouper 1] (fun _ i => i == 1)).head? = some (.grouper (-1)) ∧
    (findAll [.ch, .grouper (-1), .grouper 1] (fun _ i => i == 1)).getLast? = some (.grouper (-1)) ∧
    find [.ch, .grouper (-1), .grouper 1] (fun _ i => i == 1) ≠
      (findAll [.ch, .grouper (-1), .grouper 1] (fun _ i => i == 1)).head? := by
  refine ⟨by decide, by decide, by decide, by decide, by decide⟩

/-- C7: `G.contains(H)` holds exactly when `G`'s `beforeOpen` is strictly
less than `H`'s `beforeOpen` and `G`'s `afterClose` is strictly greater
than `H`'s `beforeClose`; it is antireflexive; and whenever `H`'s marker
interval is strictly nested inside `G`'s (`oG < oH` and `cH < cG`, which
under well-nestedness is exactly being a descendant at any depth),
`G.contains(H)` holds. -/
theorem groupContains_characterization (oG cG oH cH : Nat) :
    (groupContains (indicesFor oG cG) (indicesFor oH cH) = true ↔
      (indicesFor oG cG).beforeOpen < (indicesFor oH cH).beforeOpen ∧
        (indicesFor oH cH).beforeClose < (indicesFor oG cG).afterClose) ∧
    groupContains (indicesFor oG cG) (indicesFor oG cG) = false ∧
    (oG < oH → cH < cG → groupContains (indicesFor oG cG) (indicesFor oH cH) = true) := by
  refine ⟨?_, ?_, ?_⟩
  · simp [groupContains, indicesFor]
  · simp [groupContains, indicesFor]
  · intro h1 h2
    simp only [groupContains, indicesFor, Bool.and_eq_true, decide_eq_true_eq]
    omega

/-- Witness for `groupContains_characterization`: the group with markers at
0 and 5 contains the group with markers at 1 and 3. -/
theorem groupContains_characterization_witness :
    groupContains (indicesFor 0 5) (indicesFor 1 3) = true :=
  (groupContains_characterization 0 5 1 3).2.2 (by decide) (by decide)

/-- Negative entries of `used` never affect the candidate loop when the
candidate is positive, since only positive candidates are tested. -/
theorem nextAvailFrom_filter_pos (used : List Int) :
    ∀ (fuel cand : Nat), 1 ≤ cand →
      nextAvailFrom used fuel cand =
        nextAvailFrom (used.filter fun g => decide (0 < g)) fuel cand := by
  intro fuel
  induction fuel with
  | zero => intro cand _; rfl
  | succ fuel ih =>
    intro cand hcand
    have hmem : used.contains (cand : Int) =
        (used.filter fun g => decide (0 < g)).contains (cand : Int) := by
      by_cases h : (cand : Int) ∈ used
      · have h2 : (cand : Int) ∈ used.filter fun g => decide (0 < g) := by
          rw [List.mem_filter]
          exact ⟨h, by simp; omega⟩
        simp [List.contains, h, h2]
      · have h2 : (cand : Int) ∉ used.filter fun g => decide (0 < g) := by
          rw [List.mem_filter]
          exact fun hc => h hc.1
        simp [List.contains, h, h2]
    simp only [nextAvailFrom, ← hmem]
    by_cases h : used.contains (cand : Int) = true
    · rw [if_pos h, if_pos h]
      exact ih (cand + 1) (by omega)
    · rw [if_neg h, if_neg h]

/-- C8: `nextAvailableId()` always returns the smallest positive integer
that is not the id of any group in the document: the result is at least 1,
is not among the (positive) group ids, every positive integer below it is a
group id, and the negative open-marker ids in the scanned list never affect
the result (the loop over the full id list computes the same value as over
the positive ids only).  On the examples: with groups {1,3} it returns 2,
with {1,2,3} it returns 4, and with no groups it returns 1. -/
theorem nextAvailableId_smallest_free :
    (∀ doc : List Item,
      1 ≤ nextAvailableId doc ∧
      ((nextAvailableId doc : Int) ∉ groupIds doc) ∧
      (∀ k : Nat, 1 ≤ k → k < nextAvailableId doc → (k : Int) ∈ groupIds doc) ∧
      nextAvailableId doc =
        nextAvailFrom (groupIds doc) ((usedIds doc).length + 1) 1) ∧
    nextAvailableId [.grouper (-1), .grouper 1, .grouper (-3), .grouper 3] = 2 ∧
    nextAvailableId
      [.grouper (-1), .grouper 1, .grouper (-2), .grouper 2, .grouper (-3), .grouper 3] = 4 ∧
    nextAvailableId [] = 1 := by
  refine ⟨fun doc => ?_, by decide, by decide, by decide⟩
  have hspec := nextAvailFrom_spec (usedIds doc) ((usedIds doc).length + 1) 1
    (exists_unused (usedIds doc))
  have hins := nextAvailFrom_filter_pos (usedIds doc) ((usedIds doc).length + 1) 1 (le_refl 1)
  refine ⟨hspec.2.1, ?_, ?_, hins⟩
  · intro hmem
    rw [groupIds, List.mem_filter] at hmem
    exact hspec.1 hmem.1
  · intro k hk1 hk2
    rw [groupIds, List.mem_filter]
    refine ⟨hspec.2.2 k hk1 hk2, by simp; omega⟩

/-- Witness for `nextAvailableId_smallest_free`: on the document with
groups {1,2,3} the result is 4, and the theorem's lower-bound clause
applies at the concrete positive integer 2 below it. -/
theorem nextAvailableId_smallest_free_witness :
    (2 : Int) ∈ groupIds
      [.grouper (-1), .grouper 1, .grouper (-2), .grouper 2, .grouper (-3), .grouper 3] :=
  (nextAvailableId_smallest_free.1
    [.grouper (-1), .grouper 1, .grouper (-2), .grouper 2, .grouper (-3), .grouper 3]).2.2.1
    2 (by decide) (by decide)

/-- `List.find?` with an equality test finds the element itself when it is
present. -/
theorem find_eq_self {l : List Int} {b : Int} (h : b ∈ l) :
    (l.find? fun x => x == b) = some b := by
  induction l with
  | nil => simp at h
  | cons a l ih =>
    by_cases hab : a = b
    · subst hab
      rw [List.find?_cons_of_pos _ (by simp)]
    · rw [List.find?_cons_of_neg _ (by simp [hab])]
      exact ih (by rcases List.mem_cons.mp h with rfl | hm; exact absurd rfl hab; exact hm)

/-- Core computation of the deletion protocol: starting from a state where
the pair `{a, b = -a}` is present exactly once each, neither is flagged and
the caches are coherent (either unset or pointing at the partner), deleting
`a` removes exactly `a` then `b` from the document, logs exactly one
deletion of each, and the result does not depend on the fuel beyond 3 (the
mutual recursion has terminated). -/
theorem deleteAt_pair (a b : Int) (hb : b = -a) (hne : a ≠ b) (st : DelState)
    (hca : st.doc.count a = 1) (hcb : st.doc.count b = 1)
    (hfa : st.flags.contains a = false) (hfb : st.flags.contains b = false)
    (hka : cacheGet st.cache a = none ∨ cacheGet st.cache a = some b)
    (hkb : cacheGet st.cache b = none ∨ cacheGet st.cache b = some a) :
    ∀ fuel : Nat,
      (deleteAt (fuel + 3) st a).doc = (st.doc.erase a).erase b ∧
      (deleteAt (fuel + 3) st a).delLog = b :: a :: st.delLog ∧
      deleteAt (fuel + 3) st a = deleteAt 3 st a := by
  have hmemb : b ∈ st.doc := by
    by_contra hc
    rw [List.count_eq_zero_of_not_mem hc] at hcb
    omega
  have hnotmem : a ∉ st.doc.erase a := by
    intro hc
    have h1 := st.doc.count_erase_self a
    rw [hca] at h1
    have h2 : 0 < (st.doc.erase a).count a := List.count_pos_iff.mpr hc
    omega
  have hab : (a == b) = false := by simp [hne]
  have hban : (b == a) = false := by simp [Ne.symm hne]
  have hnegb : -b = a := by omega
  have hnega : -a = b := by omega
  have hfind2 : ((st.doc.erase a).find? fun x => x == -b) = none := by
    rw [List.find?_eq_none]
    intro x hx
    simp only [hnegb, beq_iff_eq]
    intro hxa
    exact hnotmem (hxa ▸ hx)
  intro fuel
  rcases hka with h | h
  · -- the cache of `a` is unset: `partner()` scans the document and links
    -- both caches, so the second call finds `a` through the fresh link
    have step1 : ∀ f : Nat, deleteAt (f + 1) st a = deleteAt f
        { doc := st.doc.erase a, flags := a :: st.flags,
          cache := (a, b) :: (b, a) :: st.cache, delLog := a :: st.delLog } b := by
      intro f
      simp only [deleteAt, hfa, Bool.false_eq_true, if_false, partnerOf, h, hnega,
        find_eq_self hmemb]
    have step2 : ∀ f : Nat, deleteAt (f + 1)
        { doc := st.doc.erase a, flags := a :: st.flags,
          cache := (a, b) :: (b, a) :: st.cache, delLog := a :: st.delLog } b = deleteAt f
        { doc := (st.doc.erase a).erase b, flags := b :: a :: st.flags,
          cache := (a, b) :: (b, a) :: st.cache, delLog := b :: a :: st.delLog } a := by
      intro f
      simp only [deleteAt, List.contains_cons, hban, hfb, Bool.or_self, Bool.false_eq_true,
        if_false, partnerOf, cacheGet, List.find?, hab, beq_self_eq_true, Option.map_some']
    have step3 : ∀ f : Nat, deleteAt (f + 1)
        { doc := (st.doc.erase a).erase b, flags := b :: a :: st.flags,
          cache := (a, b) :: (b, a) :: st.cache, delLog := b :: a :: st.delLog } a =
        { doc := (st.doc.erase a).erase b, flags := b :: a :: st.flags,
          cache := (a, b) :: (b, a) :: st.cache, delLog := b :: a :: st.delLog } := by
      intro f
      simp only [deleteAt, List.contains_cons, beq_self_eq_true, Bool.or_true, Bool.true_or,
        if_true]
    have hval : ∀ f : Nat, deleteAt (f + 3) st a =
        { doc := (st.doc.erase a).erase b, flags := b :: a :: st.flags,
          cache := (a, b) :: (b, a) :: st.cache, delLog := b :: a :: st.delLog } := by
      intro f
      calc deleteAt (f + 2 + 1) st a = _ := step1 (f + 2)
        _ = _ := step2 (f + 1)
        _ = _ := step3 f
    rw [hval fuel, show (3 : Nat) = 0 + 3 from rfl, hval 0]
    exact ⟨rfl, rfl, rfl⟩
  · -- the cache of `a` already points at `b`; the cache of `b` is either
    -- set (third call guarded away) or unset (the document scan misses and
    -- the recursion already stops after the second deletion)
    have step1 : ∀ f : Nat, deleteAt (f + 1) st a = deleteAt f
        { doc := st.doc.erase a, flags := a :: st.flags,
          cache := st.cache, delLog := a :: st.delLog } b := by
      intro f
      simp only [deleteAt, hfa, Bool.false_eq_true, if_false, partnerOf, h]
    rcases hkb with h2 | h2
    · have step2 : ∀ f : Nat, deleteAt (f + 1)
          { doc := st.doc.erase a, flags := a :: st.flags,
            cache := st.cache, delLog := a :: st.delLog } b =
          { doc := (st.doc.erase a).erase b, flags := b :: a :: st.flags,
            cache := st.cache, delLog := b :: a :: st.delLog } := by
        intro f
        simp only [deleteAt, List.contains_cons, hban, hfb, Bool.or_self, Bool.false_eq_true,
          if_false, partnerOf, h2, hfind2]
      have hval : ∀ f : Nat, deleteAt (f + 3) st a =
          { doc := (st.doc.erase a).erase b, flags := b :: a :: st.flags,
            cache := st.cache, delLog := b :: a :: st.delLog } := by
        intro f
        calc deleteAt (f + 2 + 1) st a = _ := step1 (f + 2)
          _ = _ := step2 (f + 1)
      rw [hval fuel, show (3 : Nat) = 0 + 3 from rfl, hval 0]
      exact ⟨rfl, rfl, rfl⟩
    · have step2 : ∀ f : Nat, deleteAt (f + 1)
          { doc := st.doc.erase a, flags := a :: st.flags,
            cache := st.cache, delLog := a :: st.delLog } b = deleteAt f
          { doc := (st.doc.erase a).erase b, flags := b :: a :: st.flags,
            cache := st.cache, delLog := b :: a :: st.delLog } a := by
        intro f
        simp only [deleteAt, List.contains_cons, hban, hfb, Bool.or_self, Bool.false_eq_true,
          if_false, partnerOf, h2]
      have step3 : ∀ f : Nat, deleteAt (f + 1)
          { doc := (st.doc.erase a).erase b, flags := b :: a :: st.flags,
            cache := st.cache, delLog := b :: a :: st.delLog } a =
          { doc := (st.doc.erase a).erase b, flags := b :: a :: st.flags,
            cache := st.cache, delLog := b :: a :: st.delLog } := by
        intro f
        simp only [deleteAt, List.contains_cons, beq_self_eq_true, Bool.or_true, Bool.true_or,
          if_true]
      have hval : ∀ f : Nat, deleteAt (f + 3) st a =
          { doc := (st.doc.erase a).erase b, flags := b :: a :: st.flags,
            cache := st.cache, delLog := b :: a :: st.delLog } := by
        intro f
        calc deleteAt (f + 2 + 1) st a = _ := step1 (f + 2)
          _ = _ := step2 (f + 1)
          _ = _ := step3 f
      rw [hval fuel, show (3 : Nat) = 0 + 3 from rfl, hval 0]
      exact ⟨rfl, rfl, rfl⟩

/-- C2: calling `deleteAt` on either member of a grouper pair (open id
`-n`, close id `+n`) in a well-formed state removes both members of the
pair from the document, runs the actual removal exactly once per marker
(the `beingDeleted` guard prevents all re-entry), terminates (the result is
independent of the recursion fuel beyond depth 3), and shrinks the
document's grouper count by exactly 2. -/
theorem deleteAt_removes_pair (n : Int) (st : DelState) (g : Int)
    (hn : 0 < n) (hg : g = -n ∨ g = n)
    (hca : st.doc.count (-n) = 1) (hcb : st.doc.count n = 1)
    (hfa : st.flags.contains (-n) = false) (hfb : st.flags.contains n = false)
    (hka : cacheGet st.cache (-n) = none ∨ cacheGet st.cache (-n) = some n)
    (hkb : cacheGet st.cache n = none ∨ cacheGet st.cache n = some (-n))
    (hla : st.delLog.count (-n) = 0) (hlb : st.delLog.count n = 0) :
    ∀ fuel : Nat,
      (deleteAt (fuel + 3) st g).doc = (st.doc.erase (-n)).erase n ∧
      (deleteAt (fuel + 3) st g).doc.length + 2 = st.doc.length ∧
      (deleteAt (fuel + 3) st g).delLog.count (-n) = 1 ∧
      (deleteAt (fuel + 3) st g).delLog.count n = 1 ∧
      deleteAt (fuel + 3) st g = deleteAt 3 st g := by
  have hne : (-n : Int) ≠ n := by omega
  have hmema : (-n : Int) ∈ st.doc := by
    by_contra hc
    rw [List.count_eq_zero_of_not_mem hc] at hca
    omega
  have hmemb : (n : Int) ∈ st.doc := by
    by_contra hc
    rw [List.count_eq_zero_of_not_mem hc] at hcb
    omega
  have hlen : ∀ x y : Int, x ≠ y → x ∈ st.doc → y ∈ st.doc →
      ((st.doc.erase x).erase y).length + 2 = st.doc.length := by
    intro x y hxy hx hy
    have hymem : y ∈ st.doc.erase x := (List.mem_erase_of_ne (Ne.symm hxy)).mpr hy
    rw [List.length_erase_of_mem hymem, List.length_erase_of_mem hx]
    have h1 : 1 ≤ st.doc.length := List.length_pos_of_mem hx
    have h2 : 1 ≤ (st.doc.erase x).length := List.length_pos_of_mem hymem
    rw [List.length_erase_of_mem hx] at h2
    omega
  intro fuel
  rcases hg with hg1 | hg2
  · rw [hg1]
    have hres := deleteAt_pair (-n) n (by omega) hne st hca hcb hfa hfb hka hkb fuel
    refine ⟨hres.1, ?_, ?_, ?_, hres.2.2⟩
    · rw [hres.1]; exact hlen (-n) n hne hmema hmemb
    · rw [hres.2.1]; simp [List.count_cons, hne, hla]
    · rw [hres.2.1]; simp [List.count_cons, Ne.symm hne, hlb]
  · rw [hg2]
    have hres := deleteAt_pair n (-n) (by omega) (Ne.symm hne) st hcb hca hfb hfa hkb hka fuel
    refine ⟨?_, ?_, ?_, ?_, hres.2.2⟩
    · rw [hres.1]; exact List.erase_comm n (-n) st.doc
    · rw [hres.1, List.erase_comm n (-n) st.doc]; exact hlen (-n) n hne hmema hmemb
    · rw [hres.2.1]; simp [List.count_cons, hne, hla]
    · rw [hres.2.1]; simp [List.count_cons, Ne.symm hne, hlb]

/-- Witness for `deleteAt_removes_pair`: deleting the open marker of the
only pair in the two-marker document `[-1, 1]` empties the document and
logs one deletion per marker. -/
theorem deleteAt_removes_pair_witness :
    (deleteAt 3 ⟨[-1, 1], [], [], []⟩ (-1)).doc = ((([-1, 1] : List Int).erase (-1)).erase 1) ∧
    (deleteAt 3 ⟨[-1, 1], [], [], []⟩ (-1)).doc.length + 2 = 2 ∧
    (deleteAt 3 ⟨[-1, 1], [], [], []⟩ (-1)).delLog.count (-1) = 1 ∧
    (deleteAt 3 ⟨[-1, 1], [], [], []⟩ (-1)).delLog.count 1 = 1 := by
  have h := deleteAt_removes_pair 1 ⟨[-1, 1], [], [], []⟩ (-1) (by decide) (Or.inl rfl)
    (by decide) (by decide) (by decide) (by decide) (Or.inl rfl) (Or.inl rfl)
    (by decide) (by decide) 0
  exact ⟨h.1, h.2.1, h.2.2.1, h.2.2.2.1⟩

/-- C4: `wrapSelection` performs no mutation at all — the editor state is
returned unchanged — whenever there is no active selection, or the open-id
stack at the selection start differs (as an integer list) from the open-id
stack at the selection end; and the string comparison the code uses for the
guard is equivalent to element-wise equality of the two integer lists. -/
theorem wrapSelection_no_mutation (st : EditorState) :
    (st.selection = none → wrapSelection st = st) ∧
    (∀ I L : Nat, st.selection = some (I, L) →
      idsContaining st.doc I ≠ idsContaining st.doc (I + L) → wrapSelection st = st) ∧
    (∀ a b : List Int, jsArrayString a = jsArrayString b ↔ a = b) := by
  refine ⟨?_, ?_, fun a b => jsArrayString_eq_iff⟩
  · intro h
    simp only [wrapSelection, h]
  · intro I L hsel hne
    have hgs : jsArrayString (idsContaining st.doc I) ≠
        jsArrayString (idsContaining st.doc (I + L)) :=
      fun hc => hne (jsArrayString_inj hc)
    simp only [wrapSelection, hsel]
    rw [if_pos hgs]

/-- Witness for `wrapSelection_no_mutation`: a selection of length 1 at
index 0 straddles the open marker of the group in
`[open -1, text, close 1]`, and `wrapSelection` leaves the state alone. -/
theorem wrapSelection_no_mutation_witness :
    wrapSelection ⟨[.grouper (-1), .ch, .grouper 1], some (0, 1)⟩ =
      ⟨[.grouper (-1), .ch, .grouper 1], some (0, 1)⟩ :=
  (wrapSelection_no_mutation ⟨[.grouper (-1), .ch, .grouper 1], some (0, 1)⟩).2.1 0 1 rfl
    (by decide)

/-- C3: on a well-formed document with an active selection of length `L` at
index `I` whose open-id stacks at the two selection ends agree,
`wrapSelection` inserts the open marker `-newId` at index `I` and the close
marker `+newId` at index `I + L + 1` (`newId = nextAvailableId()`), grows
the document by exactly 2, produces a group whose `indices().afterOpen`
equals `I + 1`, and selects `(I + 1, L)` afterwards. -/
theorem wrapSelection_inserts_pair (st : EditorState) (I L : Nat)
    (hsel : st.selection = some (I, L))
    (hlen : I + L ≤ st.doc.length)
    (hguard : idsContaining st.doc I = idsContaining st.doc (I + L))
    (hpair : ∀ g : Int, Item.grouper g ∈ st.doc → Item.grouper (-g) ∈ st.doc) :
    (wrapSelection st).doc.length = st.doc.length + 2 ∧
    (wrapSelection st).doc[I]? = some (.grouper (-(nextAvailableId st.doc : Int))) ∧
    (wrapSelection st).doc[I + 1 + L]? = some (.grouper (nextAvailableId st.doc : Int)) ∧
    (groupIndices (wrapSelection st).doc (nextAvailableId st.doc)).map Indices.afterOpen =
      some (I + 1) ∧
    (wrapSelection st).selection = some (I + 1, L) :=
  wrapSelection_accepted_facts st I L hsel hlen hguard hpair

/-- Witness for `wrapSelection_inserts_pair`: wrapping the whole two-atom
text document `[text, text]` produces a four-atom document with the open
marker at 0, the close marker at 3, `afterOpen = 1` and selection
`(1, 2)`. -/
theorem wrapSelection_inserts_pair_witness :
    (wrapSelection ⟨[.ch, .ch], some (0, 2)⟩).doc.length = 4 ∧
    (wrapSelection ⟨[.ch, .ch], some (0, 2)⟩).doc[0]? =
      some (.grouper (-(nextAvailableId [.ch, .ch] : Int))) ∧
    (wrapSelection ⟨[.ch, .ch], some (0, 2)⟩).doc[3]? =
      some (.grouper (nextAvailableId [.ch, .ch] : Int)) ∧
    (wrapSelection ⟨[.ch, .ch], some (0, 2)⟩).selection = some (1, 2) := by
  have h := wrapSelection_inserts_pair ⟨[.ch, .ch], some (0, 2)⟩ 0 2 rfl (by decide)
    (by decide) (by intro g hg; simp at hg)
  exact ⟨h.1, h.2.1, h.2.2.1, h.2.2.2.2⟩

/-- C10: a zero-length selection (a cursor) at index `I` is an active
selection (only a `null` selection is rejected), the stack guard holds
trivially because both stacks are computed at the same index, and
`wrapSelection` therefore inserts a fresh pair with empty interior — open
marker at `I`, close marker directly after it at `I + 1` — and selects
`(I + 1, 0)`. -/
theorem wrapSelection_cursor_wraps (st : EditorState) (I : Nat)
    (hsel : st.selection = some (I, 0))
    (hlen : I ≤ st.doc.length)
    (hpair : ∀ g : Int, Item.grouper g ∈ st.doc → Item.grouper (-g) ∈ st.doc) :
    (wrapSelection st).doc.length = st.doc.length + 2 ∧
    (wrapSelection st).doc[I]? = some (.grouper (-(nextAvailableId st.doc : Int))) ∧
    (wrapSelection st).doc[I + 1]? = some (.grouper (nextAvailableId st.doc : Int)) ∧
    (wrapSelection st).selection = some (I + 1, 0) := by
  have h := wrapSelection_accepted_facts st I 0 hsel (by omega) (by rw [Nat.add_zero]) hpair
  exact ⟨h.1, h.2.1, h.2.2.1, h.2.2.2.2⟩

/-- Witness for `wrapSelection_cursor_wraps`: a cursor at the end of the
one-atom document `[text]` wraps an empty interior: markers at 1 and 2,
selection `(2, 0)`. -/
theorem wrapSelection_cursor_wraps_witness :
    (wrapSelection ⟨[.ch], some (1, 0)⟩).doc.length = 3 ∧
    (wrapSelection ⟨[.ch], some (1, 0)⟩).doc[1]? =
      some (.grouper (-(nextAvailableId [.ch] : Int))) ∧
    (wrapSelection ⟨[.ch], some (1, 0)⟩).doc[2]? =
      some (.grouper (nextAvailableId [.ch] : Int)) ∧
    (wrapSelection ⟨[.ch], some (1, 0)⟩).selection = some (2, 0) :=
  wrapSelection_cursor_wraps ⟨[.ch], some (1, 0)⟩ 1 rfl (by decide)
    (by intro g hg; simp at hg)

/-! ### C5: the open-id stack computes the enclosing groups -/

/-- Membership in the positive (group) ids. -/
theorem mem_groupIds {doc : List Item} {n : Int} :
    n ∈ groupIds doc ↔ Item.grouper n ∈ doc ∧ 0 < n := by
  rw [groupIds, List.mem_filter, mem_usedIds]
  simp

/-- An atom occurring exactly once cannot sit at two distinct positions. -/
theorem getElem?_eq_of_count_one {l : List Item} {it : Item} {k q : Nat}
    (hcount : l.count it = 1) (hk : l[k]? = some it) (hq : l[q]? = some it) : k = q := by
  have key : ∀ {k' q' : Nat}, k' < q' → l[k']? = some it → l[q']? = some it → False := by
    intro k' q' hlt hk' hq'
    have hsplit : l.count it = (l.take (k' + 1)).count it + (l.drop (k' + 1)).count it := by
      conv_lhs => rw [← List.take_append_drop (k' + 1) l]
      exact List.count_append _ _ _
    have hg1 : (l.take (k' + 1))[k']? = some it := by
      rw [List.getElem?_take, if_pos (by omega)]
      exact hk'
    have hg2 : (l.drop (k' + 1))[q' - (k' + 1)]? = some it := by
      rw [List.getElem?_drop]
      rw [show k' + 1 + (q' - (k' + 1)) = q' by omega]
      exact hq'
    have hm1 : it ∈ l.take (k' + 1) := List.getElem?_mem hg1
    have hm2 : it ∈ l.drop (k' + 1) := List.getElem?_mem hg2
    have hc1 := List.count_pos_iff.mpr hm1
    have hc2 := List.count_pos_iff.mpr hm2
    omega
  rcases lt_trichotomy k q with h | h | h
  · exact absurd (key h hk hq) not_false
  · exact h
  · exact absurd (key h hq hk) not_false

/-- A present atom has a first position. -/
theorem findPos_isSome_of_mem : ∀ {l : List Item} {it : Item}, it ∈ l →
    ∃ p : Nat, findPos l it = some p := by
  intro l
  induction l with
  | nil => simp
  | cons x rest ih =>
    intro it hm
    by_cases hx : x = it
    · exact ⟨0, by simp [findPos, hx]⟩
    · rcases List.mem_cons.mp hm with h | h
      · exact absurd h.symm hx
      · obtain ⟨p, hp⟩ := ih h
        exact ⟨p + 1, by simp [findPos, hx, hp]⟩

/-- For an atom occurring exactly once, its position is its first
position. -/
theorem findPos_of_count_one {l : List Item} {it : Item} {q : Nat}
    (hcount : l.count it = 1) (hq : l[q]? = some it) : findPos l it = some q := by
  obtain ⟨p, hp⟩ := findPos_isSome_of_mem (List.getElem?_mem hq)
  have hpget := (findPos_spec.mp hp).1
  rw [hp, getElem?_eq_of_count_one hcount hpget hq]

/-- Extraction from `wellNestedB`: uniqueness and pairing of grouper ids. -/
theorem wellNested_count {doc : List Item} (hw : wellNestedB doc = true) {g : Int}
    (hmem : Item.grouper g ∈ doc) :
    g ≠ 0 ∧ doc.count (Item.grouper g) = 1 ∧ doc.count (Item.grouper (-g)) = 1 := by
  rw [wellNestedB, Bool.and_eq_true, Bool.and_eq_true] at hw
  have h := List.all_eq_true.mp hw.1.1 g (mem_usedIds.mpr hmem)
  simp only [Bool.and_eq_true, decide_eq_true_eq, beq_iff_eq] at h
  exact ⟨h.1.1, h.1.2, h.2⟩

/-- Extraction from `wellNestedB`: both markers of a group are present and
the open marker precedes the close marker. -/
theorem wellNested_pair {doc : List Item} (hw : wellNestedB doc = true) {n : Int}
    (hn : n ∈ groupIds doc) :
    ∃ p q : Nat, findPos doc (.grouper (-n)) = some p ∧
      findPos doc (.grouper n) = some q ∧ p < q := by
  rw [wellNestedB, Bool.and_eq_true, Bool.and_eq_true] at hw
  have h := List.all_eq_true.mp hw.1.2 n hn
  cases hp : findPos doc (.grouper (-n)) with
  | none => rw [hp] at h; cases hq : findPos doc (.grouper n) <;> rw [hq] at h <;> simp at h
  | some p =>
    cases hq : findPos doc (.grouper n) with
    | none => rw [hp, hq] at h; simp at h
    | some q =>
      rw [hp, hq] at h
      simp only [decide_eq_true_eq] at h
      exact ⟨p, q, rfl, rfl, h⟩

/-- Extraction from `wellNestedB`: no two distinct groups interleave. -/
theorem wellNested_no_interleave {doc : List Item} (hw : wellNestedB doc = true)
    {m n : Int} (hm : m ∈ groupIds doc) (hn : n ∈ groupIds doc) (hmn : m ≠ n)
    {pm qm pn qn : Nat}
    (h1 : findPos doc (.grouper (-m)) = some pm) (h2 : findPos doc (.grouper m) = some qm)
    (h3 : findPos doc (.grouper (-n)) = some pn) (h4 : findPos doc (.grouper n) = some qn) :
    ¬(pm < pn ∧ pn < qm ∧ qm < qn) := by
  rw [wellNestedB, Bool.and_eq_true, Bool.and_eq_true] at hw
  have h := List.all_eq_true.mp (List.all_eq_true.mp hw.2 m hm) n hn
  rw [h1, h2, h3, h4] at h
  simp only [Bool.or_eq_true, beq_iff_eq] at h
  rcases h with h | h
  · exact absurd h hmn
  · intro hc
    simp at h
    rcases h with (h | h) | h <;> omega

/-- Inversion for `encAt`: what a hit tells us. -/
theorem encAt_inv {doc : List Item} {j p : Nat} {m : Int}
    (h : encAt doc j p = some m) :
    ∃ g q, doc[p]? = some (.grouper g) ∧ g < 0 ∧ m = -g ∧
      findPos doc (.grouper (-g)) = some q ∧ j ≤ q := by
  unfold encAt at h
  split at h
  next g heq =>
    split at h
    next hg =>
      split at h
      next q hq =>
        split at h
        next hle => exact ⟨g, q, heq, hg, (Option.some_inj.mp h).symm, hq, hle⟩
        next => exact absurd h (by simp)
      next => exact absurd h (by simp)
    next => exact absurd h (by simp)
  next => exact absurd h (by simp)

/-- `encAt` at a position holding an open marker whose close marker is
found at `q`. -/
theorem encAt_of_open {doc : List Item} {j p q : Nat} {g : Int}
    (hp : doc[p]? = some (.grouper g)) (hg : g < 0)
    (hq : findPos doc (.grouper (-g)) = some q) :
    encAt doc j p = if j ≤ q then some (-g) else none := by
  simp [encAt, hp, hq, hg]

/-- `encAt` misses when the position does not hold an open marker. -/
theorem encAt_none_of_not_open {doc : List Item} {j p : Nat}
    (h : ∀ g : Int, doc[p]? = some (.grouper g) → 0 ≤ g) :
    encAt doc j p = none := by
  cases hp : doc[p]? with
  | none => simp [encAt, hp]
  | some it =>
    cases it with
    | ch => simp [encAt, hp]
    | grouper g =>
      have hge := h g hp
      simp [encAt, hp, show ¬(g < 0) from by omega]

/-- Raising the query index by one does not change `encAt` at positions
whose group does not close exactly at `idx`. -/
theorem encAt_succ_eq {doc : List Item} {idx : Nat} (p : Nat)
    (h : ∀ g q, doc[p]? = some (.grouper g) → g < 0 →
      findPos doc (.grouper (-g)) = some q → q ≠ idx) :
    encAt doc (idx + 1) p = encAt doc idx p := by
  cases hp : doc[p]? with
  | none => simp [encAt, hp]
  | some it =>
    cases it with
    | ch => simp [encAt, hp]
    | grouper g =>
      by_cases hg : g < 0
      · cases hq : findPos doc (.grouper (-g)) with
        | none => simp [encAt, hp, hq, hg]
        | some q =>
          have hne := h g q hp hg hq
          by_cases hle : idx ≤ q
          · simp [encAt, hp, hq, hg, hle, show idx + 1 ≤ q from by omega]
          · simp [encAt, hp, hq, hg, hle, show ¬(idx + 1 ≤ q) from by omega]
      · simp [encAt, hp, hg]

/-- Dropping a `none` tail segment of a `filterMap` over `range`. -/
theorem filterMap_range_high_none (f : Nat → Option Int) (k : Nat) :
    ∀ (m : Nat), k ≤ m → (∀ p, k ≤ p → p < m → f p = none) →
      (List.range m).filterMap f = (List.range k).filterMap f := by
  intro m hkm
  induction m, hkm using Nat.le_induction with
  | base => intro _; rfl
  | succ m hm ih =>
    intro h
    rw [List.range_succ, List.filterMap_append]
    have hm0 : f m = none := h m hm (by omega)
    have hsing : List.filterMap f [m] = [] := by
      simp [List.filterMap_cons, hm0]
    rw [hsing, List.append_nil]
    exact ih (fun p hp1 hp2 => h p hp1 (by omega))

/-- Peeling the last index off a `filterMap` over `range`. -/
theorem filterMap_range_succ (f : Nat → Option Int) (m : Nat) :
    (List.range (m + 1)).filterMap f = (List.range m).filterMap f ++ (f m).toList := by
  rw [List.range_succ, List.filterMap_append]
  have hsing : List.filterMap f [m] = (f m).toList := by
    cases h : f m <;> simp [List.filterMap_cons, h]
  rw [hsing]

/-- The breaking scan of `idsContaining` equals folding the stack step over
the prefix of the document before the queried index (every atom advances
the position by exactly 1, so breaking at the first grouper at position
`≥ index` is the same as processing the prefix `take (index - pos)`). -/
theorem idsGo_eq_foldl : ∀ (l : List Item) (pos index : Nat) (acc : List Int),
    idsGo l pos index acc = List.foldl stackStep acc (l.take (index - pos)) := by
  intro l
  induction l with
  | nil => intro pos index acc; simp [idsGo]
  | cons x rest ih =>
    intro pos index acc
    cases x with
    | ch =>
      rw [show idsGo (Item.ch :: rest) pos index acc = idsGo rest (pos + 1) index acc from rfl,
        ih]
      by_cases hpi : index ≤ pos
      · rw [show index - pos = 0 from by omega, show index - (pos + 1) = 0 from by omega]
        rfl
      · have h1 : index - pos = (index - (pos + 1)) + 1 := by omega
        rw [h1, List.take_succ_cons, List.foldl_cons]
        rfl
    | grouper g =>
      by_cases hpi : index ≤ pos
      · rw [show idsGo (Item.grouper g :: rest) pos index acc = acc from by simp [idsGo, hpi],
          show index - pos = 0 from by omega]
        rfl
      · have hstep : idsGo (Item.grouper g :: rest) pos index acc =
            idsGo rest (pos + 1) index (if g < 0 then acc ++ [g] else acc.dropLast) := by
          simp [idsGo, hpi]
        rw [hstep, ih]
        have h1 : index - pos = (index - (pos + 1)) + 1 := by omega
        rw [h1, List.take_succ_cons, List.foldl_cons]
        rfl

/-- `idsContaining` is the stack fold over the document prefix. -/
theorem idsContaining_eq_stackRun (doc : List Item) (index : Nat) :
    idsContaining doc index = stackRun (doc.take index) := by
  rw [idsContaining, stackRun, idsGo_eq_foldl, Nat.sub_zero]

/-- The enclosing set does not change across an index holding no grouper. -/
theorem enclosing_succ_no_marker (doc : List Item) (idx : Nat)
    (hno : ∀ n : Int, doc[idx]? ≠ some (.grouper n)) :
    enclosingIds doc (idx + 1) = enclosingIds doc idx := by
  rw [enclosingIds, filterMap_range_succ]
  have hnone : encAt doc (idx + 1) idx = none :=
    encAt_none_of_not_open (fun g hg => absurd hg (hno g))
  rw [hnone, show (Option.none : Option Int).toList = [] from rfl, List.append_nil,
    enclosingIds]
  refine List.filterMap_congr fun p hp => ?_
  refine encAt_succ_eq p fun g q hpg hg hq hqe => ?_
  have hq2 := (findPos_spec.mp hq).1
  rw [hqe] at hq2
  exact hno (-g) hq2

/-- Well-nestedness forces all groups still open strictly after `p₀` to
stay open across the close marker at `idx` of the group opened at `p₀`:
`encAt` misses at every position strictly between them. -/
theorem close_mid_none (doc : List Item) (hw : wellNestedB doc = true) {g : Int} {p₀ idx : Nat}
    (hg : 0 < g)
    (hp₀ : findPos doc (.grouper (-g)) = some p₀)
    (hfg : findPos doc (.grouper g) = some idx) :
    ∀ (j p : Nat), idx ≤ j → p₀ < p → p < idx → encAt doc j p = none := by
  intro j p hj hp1 hp2
  cases henc : encAt doc j p with
  | none => rfl
  | some m =>
    exfalso
    obtain ⟨g', q, hpg, hg', hm, hfq, hjq⟩ := encAt_inv henc
    have hmemg' : Item.grouper g' ∈ doc := List.getElem?_mem hpg
    obtain ⟨hg'0, hcg', _⟩ := wellNested_count hw hmemg'
    have hfp : findPos doc (.grouper g') = some p := findPos_of_count_one hcg' hpg
    have hqget : doc[q]? = some (.grouper (-g')) := (findPos_spec.mp hfq).1
    have hmemq : Item.grouper (-g') ∈ doc := List.getElem?_mem hqget
    have hmgrp : (-g') ∈ groupIds doc := mem_groupIds.mpr ⟨hmemq, by omega⟩
    have hggrp : g ∈ groupIds doc :=
      mem_groupIds.mpr ⟨List.getElem?_mem (findPos_spec.mp hfg).1, hg⟩
    have hne : g ≠ -g' := by
      intro hc
      have hsw : findPos doc (.grouper (-g)) = some p := by
        rw [show (-g : Int) = g' from by omega]
        exact hfp
      rw [hp₀] at hsw
      have := Option.some_inj.mp hsw
      omega
    have hqidx : q ≠ idx := by
      intro hc
      rw [hc] at hqget
      have hgget : doc[idx]? = some (.grouper g) := (findPos_spec.mp hfg).1
      rw [hgget] at hqget
      have : g = -g' := by simpa using hqget
      exact hne this
    have hfp' : findPos doc (.grouper (-(-g'))) = some p := by
      rw [show (-(-g') : Int) = g' from by omega]
      exact hfp
    have hW3 := wellNested_no_interleave hw hggrp hmgrp hne hp₀ hfg hfp' hfq
    exact hW3 ⟨hp1, hp2, by omega⟩

/-- The open-id stack after scanning the prefix before `index` equals the
(negated) enclosing group ids, outermost first. -/
theorem stackRun_take_eq (doc : List Item) (hw : wellNestedB doc = true) :
    ∀ index : Nat, stackRun (doc.take index) = (enclosingIds doc index).map (fun n => -n) := by
  intro index
  induction index with
  | zero => rfl
  | succ idx ih =>
    have hstep : stackRun (doc.take (idx + 1)) =
        List.foldl stackStep (stackRun (doc.take idx)) (doc[idx]?).toList := by
      simp only [stackRun, List.take_succ, List.foldl_append]
    rw [hstep, ih]
    cases hidx : doc[idx]? with
    | none =>
      rw [enclosing_succ_no_marker doc idx
        (fun n h => by rw [hidx] at h; exact absurd h (by simp))]
      rfl
    | some it =>
      cases it with
      | ch =>
        rw [enclosing_succ_no_marker doc idx
          (fun n h => by rw [hidx] at h; exact absurd h (by simp))]
        rfl
      | grouper g =>
        have hgmem : Item.grouper g ∈ doc := List.getElem?_mem hidx
        obtain ⟨hg0, hcg, hcng⟩ := wellNested_count hw hgmem
        have hfg : findPos doc (.grouper g) = some idx := findPos_of_count_one hcg hidx
        rcases lt_trichotomy g 0 with hg | hg | hg
        · -- open marker at idx
          have hnmem : Item.grouper (-g) ∈ doc := by
            have hpos : 0 < doc.count (.grouper (-g)) := by omega
            exact List.count_pos_iff.mp hpos
          have hngrp : (-g) ∈ groupIds doc := mem_groupIds.mpr ⟨hnmem, by omega⟩
          obtain ⟨p₀, q₀, hp₀, hq₀, hpq⟩ := wellNested_pair hw hngrp
          rw [neg_neg] at hp₀
          rw [hp₀] at hfg
          have hpidx : p₀ = idx := Option.some_inj.mp hfg
          rw [hpidx] at hpq
          have henc : enclosingIds doc (idx + 1) = enclosingIds doc idx ++ [-g] := by
            rw [enclosingIds, filterMap_range_succ]
            have hat : encAt doc (idx + 1) idx = some (-g) := by
              rw [encAt_of_open hidx hg hq₀, if_pos (by omega)]
            rw [hat]
            have hcongr : (List.range idx).filterMap (encAt doc (idx + 1)) =
                (List.range idx).filterMap (encAt doc idx) := by
              refine List.filterMap_congr fun p hp => ?_
              refine encAt_succ_eq p fun g₂ q hpg hg₂ hq hqe => ?_
              have hq2 := (findPos_spec.mp hq).1
              rw [hqe, hidx] at hq2
              have : g = -g₂ := by simpa using hq2
              omega
            rw [hcongr]
            rfl
          rw [henc]
          simp [stackStep, hg]
        · omega
        · -- close marker at idx
          have hggrp : g ∈ groupIds doc := mem_groupIds.mpr ⟨hgmem, hg⟩
          obtain ⟨p₀, q₀, hp₀, hq₀, hpq⟩ := wellNested_pair hw hggrp
          rw [hq₀] at hfg
          have hqidx : q₀ = idx := Option.some_inj.mp hfg
          rw [hqidx] at hpq hq₀
          -- hp₀ : open marker of g at p₀ < idx; close marker of g at idx
          have hfgc : findPos doc (.grouper g) = some idx := hq₀
          have hopguard : doc[p₀]? = some (.grouper (-g)) := (findPos_spec.mp hp₀).1
          have hkey : enclosingIds doc idx =
              (List.range p₀).filterMap (encAt doc idx) ++ [g] := by
            rw [enclosingIds,
              filterMap_range_high_none (encAt doc idx) (p₀ + 1) idx (by omega)
                (fun p hq1 hq2 => close_mid_none doc hw hg hp₀ hfgc idx p (le_refl idx)
                  (by omega) hq2),
              filterMap_range_succ]
            have hat : encAt doc idx p₀ = some g := by
              rw [encAt_of_open hopguard (by omega)
                (by rw [neg_neg]; exact hfgc), if_pos (le_refl idx)]
              rw [neg_neg]
            rw [hat]
            rfl
          have hkey2 : enclosingIds doc (idx + 1) =
              (List.range p₀).filterMap (encAt doc idx) := by
            rw [enclosingIds,
              filterMap_range_high_none (encAt doc (idx + 1)) (p₀ + 1) (idx + 1) (by omega)
                (fun p hq1 hq2 => ?_),
              filterMap_range_succ]
            · have hat : encAt doc (idx + 1) p₀ = none := by
                rw [encAt_of_open hopguard (by omega) (by rw [neg_neg]; exact hfgc),
                  if_neg (by omega)]
              rw [hat, show (Option.none : Option Int).toList = [] from rfl, List.append_nil]
              refine List.filterMap_congr fun p hp => ?_
              refine encAt_succ_eq p fun g₂ q hpg hg₂ hq hqe => ?_
              have hq2 := (findPos_spec.mp hq).1
              rw [hqe, hidx] at hq2
              have hgg : g = -g₂ := by simpa using hq2
              have hmemg₂ : Item.grouper g₂ ∈ doc := List.getElem?_mem hpg
              obtain ⟨_, hcg₂, _⟩ := wellNested_count hw hmemg₂
              have hcp : findPos doc (.grouper g₂) = some p := findPos_of_count_one hcg₂ hpg
              have hswap : findPos doc (.grouper (-g)) = some p := by
                rw [show (-g : Int) = g₂ from by omega]
                exact hcp
              rw [hp₀] at hswap
              have hpp := Option.some_inj.mp hswap
              have hpmem := List.mem_range.mp hp
              omega
            · by_cases hpidx : p < idx
              · exact close_mid_none doc hw hg hp₀ hfgc (idx + 1) p (by omega) (by omega) hpidx
              · have hpe : p = idx := by omega
                subst hpe
                refine encAt_none_of_not_open fun g₂ hg₂ => ?_
                rw [hidx] at hg₂
                have : g = g₂ := by simpa using hg₂
                omega
          rw [hkey, hkey2]
          simp [stackStep, show ¬(g < 0) from by omega]

/-- Transfer of a pairwise relation through `filterMap`. -/
theorem pairwise_filterMap_of {α β : Type} {S : α → α → Prop} {R : β → β → Prop}
    (f : α → Option β)
    (hf : ∀ a b x y, S a b → f a = some x → f b = some y → R x y) :
    ∀ {l : List α}, List.Pairwise S l → List.Pairwise R (l.filterMap f) := by
  intro l
  induction l with
  | nil => intro _; simp
  | cons a l ih =>
    intro hp
    rw [List.filterMap_cons]
    cases ha : f a with
    | none => exact ih hp.of_cons
    | some x =>
      refine List.Pairwise.cons ?_ (ih hp.of_cons)
      intro y hy
      obtain ⟨b, hb, hfb⟩ := List.mem_filterMap.mp hy
      exact hf a b x y (List.rel_of_pairwise_cons hp hb) ha hfb

/-- Two hits of `encAt` at increasing positions name groups where the
earlier (outer) one strictly encloses the later (inner) one. -/
theorem encAt_encloses (doc : List Item) (hw : wellNestedB doc = true) (index : Nat) :
    ∀ p p' m m', p < p' → p' < index → encAt doc index p = some m →
      encAt doc index p' = some m' → strictlyEncloses doc m m' := by
  intro p p' m m' hpp hp'idx h1 h2
  obtain ⟨g, q, hpg, hg, rfl, hfq, hq⟩ := encAt_inv h1
  obtain ⟨g', q', hpg', hg', rfl, hfq', hq'⟩ := encAt_inv h2
  have hmem := List.getElem?_mem hpg
  have hmem' := List.getElem?_mem hpg'
  obtain ⟨_, hc, _⟩ := wellNested_count hw hmem
  obtain ⟨_, hc', _⟩ := wellNested_count hw hmem'
  have hfp : findPos doc (.grouper g) = some p := findPos_of_count_one hc hpg
  have hfp' : findPos doc (.grouper g') = some p' := findPos_of_count_one hc' hpg'
  have hne : (-g) ≠ (-g') := by
    intro hc2
    have hgg : g = g' := by omega
    rw [hgg, hfp'] at hfp
    have := Option.some_inj.mp hfp
    omega
  have hgrp : (-g) ∈ groupIds doc :=
    mem_groupIds.mpr ⟨List.getElem?_mem (findPos_spec.mp hfq).1, by omega⟩
  have hgrp' : (-g') ∈ groupIds doc :=
    mem_groupIds.mpr ⟨List.getElem?_mem (findPos_spec.mp hfq').1, by omega⟩
  have hfpneg : findPos doc (.grouper (-(-g))) = some p := by rw [neg_neg]; exact hfp
  have hfpneg' : findPos doc (.grouper (-(-g'))) = some p' := by rw [neg_neg]; exact hfp'
  have hqq : q' < q := by
    have hqne : q ≠ q' := by
      intro hc2
      have ha := (findPos_spec.mp hfq).1
      have hb := (findPos_spec.mp hfq').1
      rw [← hc2, ha] at hb
      have : -g = -g' := by simpa using hb
      exact hne this
    have hW3 := wellNested_no_interleave hw hgrp hgrp' hne hfpneg hfq hfpneg' hfq'
    by_contra hcon
    push_neg at hcon
    exact hW3 ⟨hpp, by omega, by omega⟩
  exact ⟨p, q, p', q', hfpneg, hfq, hfpneg', hfq', hpp, hqq⟩

/-- The enclosing-id list is ordered outermost first: every earlier entry
strictly encloses every later entry. -/
theorem enclosingIds_pairwise (doc : List Item) (hw : wellNestedB doc = true) (index : Nat) :
    List.Pairwise (strictlyEncloses doc) (enclosingIds doc index) := by
  rw [enclosingIds]
  have hmono : ∀ (a b : Nat) (x y : Int), (a < b ∧ b < index) → encAt doc index a = some x →
      encAt doc index b = some y → strictlyEncloses doc x y :=
    fun a b x y hab h1 h2 => encAt_encloses doc hw index a b x y hab.1 hab.2 h1 h2
  have hS : List.Pairwise (fun a b => a < b ∧ b < index) (List.range index) := by
    refine (List.pairwise_lt_range index).imp_of_mem ?_
    intro a b ha hb hab
    exact ⟨hab, List.mem_range.mp hb⟩
  exact pairwise_filterMap_of (encAt doc index) hmono hS

/-- C5: on a well-nested document, `idsContaining(index)` — the scan that
pushes the open marker's id and pops on close markers, pop on an empty
stack being a no-op — returns exactly the open-marker ids of the groups
properly enclosing `index`, ordered outermost first (each earlier entry's
group strictly encloses each later entry's group, so the innermost group's
id is last); its length is the nesting depth at that index, which is
trivially nonnegative. -/
theorem idsContaining_stack_spec (doc : List Item) (index : Nat)
    (hw : wellNestedB doc = true) :
    idsContaining doc index = (enclosingIds doc index).map (fun n => -n) ∧
    (idsContaining doc index).length = (enclosingIds doc index).length ∧
    0 ≤ (idsContaining doc index).length ∧
    List.Pairwise (strictlyEncloses doc) (enclosingIds doc index) := by
  have h1 : idsContaining doc index = (enclosingIds doc index).map (fun n => -n) := by
    rw [idsContaining_eq_stackRun]
    exact stackRun_take_eq doc hw index
  exact ⟨h1, by rw [h1, List.length_map], Nat.zero_le _,
    enclosingIds_pairwise doc hw index⟩

/-- Witness for `idsContaining_stack_spec`: in the document
`[open -1, open -2, text, close 2, close 1]` the index 3 is enclosed by
groups 1 and 2 (outermost first), and the stack holds their open ids. -/
theorem idsContaining_stack_spec_witness :
    idsContaining [.grouper (-1), .grouper (-2), .ch, .grouper 2, .grouper 1] 3 =
      (enclosingIds [.grouper (-1), .grouper (-2), .ch, .grouper 2, .grouper 1] 3).map
        (fun n => -n) :=
  (idsContaining_stack_spec [.grouper (-1), .grouper (-2), .ch, .grouper 2, .grouper 1] 3
    (by decide)).1

end QuillGroups
